import Mathlib

/-!
Verification development for the ptrs library: identity-stable pointer views
over immutable values, a copy-on-write mutator, a weak subscriber registry,
and a render-tracking wrapper.

JavaScript reference identity is modelled with an explicit heap: objects live
at natural-number ids, and a value is a primitive, an object reference, or a
function reference.  Strict equality on this value type coincides with the
JavaScript non-NaN semantics of the triple-equals operator used by the code.
-/

namespace Ptrs

/-- JavaScript primitive values as used by the library (floats do not occur
in any claim; numbers are modelled as integers). -/
inductive JPrim where
  | num (n : Int)
  | str (s : String)
  | bool (b : Bool)
  | undefined
  | null
  deriving DecidableEq, Repr

/-- Pointer property behavior kinds, from pointer.ts (PointerPropertyType). -/
inductive PropType where
  | pointer
  | mutate
  | readonly
  deriving DecidableEq, Repr

/-- Container kind: plain record object vs. array. -/
inductive JKind where
  | record
  | array
  deriving DecidableEq, Repr

/-- A JavaScript value: a primitive, a reference to a heap object, or a
function (identified by an id; its behavior is supplied by the host). -/
inductive JVal where
  | prim (p : JPrim)
  | ref (id : Nat)
  | func (id : Nat)
  deriving DecidableEq, Repr

/-- A heap object: its container kind, its own enumerable fields in insertion
order, and the frozen PointerProperties side table attached by pointerSchema
(empty when no schema is attached). -/
structure JObj where
  kind : JKind
  fields : List (String × JVal)
  schema : List (String × PropType)
  deriving DecidableEq, Repr

/-- The heap: object ids are list indices; allocation appends. -/
abbrev Heap := List JObj

/-- First-match association-list lookup (property access order). -/
def lookupF (fs : List (String × JVal)) (k : String) : Option JVal :=
  match fs with
  | [] => none
  | (k1, v) :: rest => if k1 = k then some v else lookupF rest k

/-- Set a key on a field list: replace the first occurrence in place, or
append when absent (JavaScript own-property assignment order). -/
def setKeyF (fs : List (String × JVal)) (k : String) (v : JVal) : List (String × JVal) :=
  match fs with
  | [] => [(k, v)]
  | (k1, v1) :: rest => if k1 = k then (k, v) :: rest else (k1, v1) :: setKeyF rest k v

/-- Remove a key from a field list (the delete operation). -/
def removeKeyF (fs : List (String × JVal)) (k : String) : List (String × JVal) :=
  fs.filter (fun kv => kv.1 ≠ k)

/-- Own fields of a value: object fields for a reference, empty otherwise
(string indexing of primitives is out of scope of every claim). -/
def fieldsOf (h : Heap) (v : JVal) : List (String × JVal) :=
  match v with
  | .ref i => match h.get? i with
              | some o => o.fields
              | none => []
  | _ => []

/-- Schema side table of a value, as read through the PointerProperties
symbol in getPropertyType. -/
def schemaOf (h : Heap) (v : JVal) : List (String × PropType) :=
  match v with
  | .ref i => match h.get? i with
              | some o => o.schema
              | none => []
  | _ => []

/-- Property read on a value: a missing key or a non-object base yields
undefined, mirroring the optional-chained access in the source. -/
def jsGet (h : Heap) (v : JVal) (k : String) : JVal :=
  match lookupF (fieldsOf h v) k with
  | some w => w
  | none => .prim .undefined

/-- Whether a value is an array (Array.isArray). -/
def isArrayVal (h : Heap) (v : JVal) : Bool :=
  match v with
  | .ref i => match h.get? i with
              | some o => o.kind = JKind.array
              | none => false
  | _ => false

/-- Whether a value is callable (typeof value is function). -/
def isFunc (v : JVal) : Bool :=
  match v with
  | .func _ => true
  | _ => false

/-- Allocate a fresh object, returning the extended heap and its reference. -/
def allocObj (h : Heap) (kind : JKind) (fields : List (String × JVal))
    (schema : List (String × PropType)) : Heap × JVal :=
  (h ++ [⟨kind, fields, schema⟩], .ref h.length)

/--
getPropertyType from pointer.ts: the explicit schema entry of the parent
value wins; otherwise callables default to mutate and everything else to
pointer.
-/
def getPropertyType (h : Heap) (parentVal : JVal) (propName : String)
    (propValue : JVal) : PropType :=
  match (schemaOf h parentVal).lookup propName with
  | some t => t
  | none => if isFunc propValue then .mutate else .pointer

/-- ARRAY_MUTATING from pointer.ts: array methods that mutate in place and
therefore run on a copy that is written back through the pointer. -/
def ARRAY_MUTATING : List String :=
  ["push", "pop", "unshift", "shift", "splice", "fill", "copyWithin", "reverse", "sort"]

/-- The fragment of the own properties of the host Array.prototype that is
relevant here (the source tests membership with Object.hasOwn). -/
def arrayProtoProps : List String :=
  ARRAY_MUTATING ++ ["join", "slice", "concat", "indexOf", "includes", "map", "at", "toString"]

/-!
Section: The materialized pointer tree

A pointer node holds the current value it addresses and its cache of
materialized child pointers (proxyProps).  Identity of a view is its access
path from the root; the trigger log records, in order, the paths of the
views whose subscriber registry entry is triggered.
-/

/-- A materialized pointer node: its current value and its cached children. -/
inductive PNode where
  | mk (value : JVal) (children : List (String × PNode))

/-- The current value stored by a pointer node. -/
def PNode.value : PNode → JVal
  | .mk v _ => v

/-- The cached child pointers of a node, keyed by property name. -/
def PNode.children : PNode → List (String × PNode)
  | .mk _ cs => cs

/-- A view identity: its access path from the root pointer. -/
abbrev Path := List String

/-- First-match child lookup in a proxyProps cache. -/
def lookupChild (cs : List (String × PNode)) (k : String) : Option PNode :=
  match cs with
  | [] => none
  | (k1, c) :: rest => if k1 = k then some c else lookupChild rest k

/-- Replace the first child cached under a key. -/
def replaceChild (cs : List (String × PNode)) (k : String) (c : PNode) :
    List (String × PNode) :=
  match cs with
  | [] => []
  | (k1, c1) :: rest =>
      if k1 = k then (k1, c) :: rest else (k1, c1) :: replaceChild rest k c

/-- The materialized node at a path, if any. -/
def lookupPath (n : PNode) (p : Path) : Option PNode :=
  match p with
  | [] => some n
  | k :: rest =>
      match lookupChild n.children k with
      | some c => lookupPath c rest
      | none => none

/-- The value stored at a path, if the node is materialized. -/
def valueAt (n : PNode) (p : Path) : Option JVal :=
  match lookupPath n p with
  | some t => some t.value
  | none => none

mutual
/--
The write branch of the pointer apply trap as run during downward fan-out
(bubbleUp disabled), from pointer.ts: if the new value is reference-identical
to the stored one, return with no side effect at all; otherwise store it,
trigger the subscribers of this view (recorded as its path in the log), and
push the corresponding sub-value into every cached child whose key does not
address a callable in the new value.
-/
def fanWrite (n : PNode) (h : Heap) (selfPath : Path) (v : JVal) :
    PNode × List Path :=
  match n with
  | .mk value cs =>
      if v = value then (.mk value cs, [])
      else
        let res := fanWriteList cs h selfPath v
        (.mk v res.1, selfPath :: res.2)

/-- Fan a freshly stored value out over a cached-children list. -/
def fanWriteList (cs : List (String × PNode)) (h : Heap) (selfPath : Path)
    (v : JVal) : List (String × PNode) × List Path :=
  match cs with
  | [] => ([], [])
  | (k, c) :: rest =>
      let sub := jsGet h v k
      let hd :=
        if isFunc sub then (c, ([] : List Path))
        else
          let r := fanWrite c h (selfPath ++ [k]) sub
          (r.1, r.2)
      let tl := fanWriteList rest h selfPath v
      ((k, hd.1) :: tl.1, hd.2 ++ tl.2)
end

/-- Result of a write issued through a view: the updated root tree, the
updated heap, the ordered trigger log, whether the stored value actually
changed, and the value finally installed at the written node. -/
structure WriteResult where
  node : PNode
  heap : Heap
  logs : List Path
  changed : Bool
  installed : JVal

/--
The child write-back callback of pointer.ts (the closure created in the get
trap): build a shallow copy of the current parent container with the key set
to the candidate value — an array copy when the current value is an array,
otherwise an object spread (a spread of undefined yields a plain record) —
and install it as the parent value.  The parent schema is carried along as
the spread copies the symbol-keyed side table.
-/
def srcChildWriteback (h : Heap) (cur : JVal) (k : String) (nv : JVal) :
    Heap × JVal :=
  let kind := if isArrayVal h cur then JKind.array else JKind.record
  allocObj h kind (setKeyF (fieldsOf h cur) k nv) (schemaOf h cur)

/--
A write issued on the view at `path` (pointer.ts apply trap, one-argument
branch, as the code under src behaves): the written node applies the
reference-equality no-op guard; when the value changes it is stored, the
write-back closure chain directly replaces the value of every ancestor with
a shallow copy holding the new child value (without triggering the
ancestors), the written node triggers its own subscribers, and the new value
fans out to its cached children.
-/
def srcWriteAt (n : PNode) (h : Heap) (selfPath : Path) (path : Path)
    (v : JVal) : WriteResult :=
  match path with
  | [] =>
      if v = n.value then ⟨n, h, [], false, n.value⟩
      else
        let r := fanWrite n h selfPath v
        ⟨r.1, h, r.2, true, v⟩
  | k :: rest =>
      match lookupChild n.children k with
      | none => ⟨n, h, [], false, n.value⟩
      | some c =>
          let d := srcWriteAt c h (selfPath ++ [k]) rest v
          if d.changed then
            let wb := srcChildWriteback d.heap n.value k d.installed
            ⟨.mk wb.2 (replaceChild n.children k d.node), wb.1, d.logs, true, wb.2⟩
          else
            ⟨.mk n.value (replaceChild n.children k d.node), d.heap, d.logs,
              false, n.value⟩

/--
A write on the view at `path` while bubble-up is suppressed (the mutate
method branch sets the module flag to false around the write-back to the
owner view): the target node stores, triggers and fans out exactly as in a
normal write, but no ancestor value is rebuilt.
-/
def writeNoBubbleAt (n : PNode) (h : Heap) (selfPath : Path) (path : Path)
    (v : JVal) : PNode × List Path :=
  match path with
  | [] => fanWrite n h selfPath v
  | k :: rest =>
      match lookupChild n.children k with
      | none => (n, [])
      | some c =>
          let d := writeNoBubbleAt c h (selfPath ++ [k]) rest v
          (.mk n.value (replaceChild n.children k d.1), d.2)

/-- One path is a proper ancestor of another when the latter extends it by
at least one key. -/
def ancestorOf (q p : Path) : Prop :=
  ∃ k r, q ++ k :: r = p

/-- Pointer usage faults. -/
inductive PtrErr where
  | invalidArity
  | missingView
  deriving DecidableEq, Repr

/-- Result of invoking a pointer as a function. -/
structure ApplyResult where
  node : PNode
  heap : Heap
  logs : List Path
  result : Except PtrErr JVal

/--
The apply trap of a child pointer created for property `name` of the owner
view at `ownerPath`, invoked directly by a caller (so the module bubbleUp
flag is true), from pointer.ts.  Host behavior that lives outside the
library is passed in: `fnPure` applies a callable to its frozen context
(readonly branch), `fnMutate` runs a callable through the copy-on-write
mutator returning the new this-value and the captured return value (mutate
branch), `arrNative` applies a mutating native array method to a copy of the
fields returning the new fields and the native result, and `arrPure` applies
a non-mutating native array method to the current snapshot.

Branch order follows the source: special array handling first (when the
owner value is an array and the name is an own property of the host array
type), then callable handling (unless the schema declares the slot a
pointer), then the zero-argument read, the one-argument write and the
invalid-arity fault.
-/
def applyTrap
    (fnPure : JVal → List JVal → JVal)
    (fnMutate : JVal → List JVal → JVal × JVal)
    (arrNative : String → List (String × JVal) → List JVal → List (String × JVal) × JVal)
    (arrPure : String → List (String × JVal) → List JVal → JVal)
    (root : PNode) (h : Heap) (ownerPath : Path) (name : String)
    (args : List JVal) : ApplyResult :=
  match lookupPath root ownerPath, lookupPath root (ownerPath ++ [name]) with
  | some owner, some selfNode =>
      if isArrayVal h owner.value ∧ name ∈ arrayProtoProps then
        if name ∈ ARRAY_MUTATING then
          let nat := arrNative name (fieldsOf h owner.value) args
          let alloc := allocObj h JKind.array nat.1 (schemaOf h owner.value)
          let w := srcWriteAt root alloc.1 [] ownerPath alloc.2
          ⟨w.node, w.heap, w.logs, .ok nat.2⟩
        else
          ⟨root, h, [], .ok (arrPure name (fieldsOf h owner.value) args)⟩
      else if isFunc selfNode.value ∧
          getPropertyType h owner.value name selfNode.value ≠ PropType.pointer then
        if getPropertyType h owner.value name selfNode.value = PropType.readonly then
          ⟨root, h, [], .ok (fnPure owner.value args)⟩
        else
          let m := fnMutate owner.value args
          let w := writeNoBubbleAt root h [] ownerPath m.1
          ⟨w.1, h, w.2, .ok m.2⟩
      else
        match args with
        | [] => ⟨root, h, [], .ok selfNode.value⟩
        | [v] =>
            let w := srcWriteAt root h [] (ownerPath ++ [name]) v
            ⟨w.node, w.heap, w.logs, .ok (.prim .undefined)⟩
        | _ => ⟨root, h, [], .error .invalidArity⟩
  | _, _ => ⟨root, h, [], .error .missingView⟩

/-!
Section: Spec-modelled write semantics

The snapshot of the repository contains only earlier revisions of
pointer.ts: the current revision is referenced but missing (index.ts
re-exports NoPointer and PointerValue from it, hooks.ts imports them, and
the newest test files exercise key removal on an undefined write and
subscriber firing on every ancestor of an edited child, none of which the
revisions present under src implement).  The definitions in this section are
therefore modelled from the specification of that missing revision.
-/

/-- Modelled from the spec: whether a property key looks like a non-negative
integer index (all decimal digits, non-empty). -/
def isIndexKey (k : String) : Bool :=
  k.length ≠ 0 ∧ k.all Char.isDigit

/-- Modelled from the spec: the container kind chosen by the child
write-back of the missing current pointer.ts revision — the kind of the
current container, or, when the current value is absent/undefined, array
when the key looks like a non-negative integer index and record otherwise. -/
def specWritebackKind (h : Heap) (cur : JVal) (k : String) : JKind :=
  match cur with
  | .ref i =>
      match h.get? i with
      | some o => o.kind
      | none => if isIndexKey k then .array else .record
  | .prim .undefined => if isIndexKey k then .array else .record
  | _ => .record

/-- Modelled from the spec: the child write-back callback of the missing
current pointer.ts revision.  Given a candidate value for key `k`, it builds
a new container for the parent: when the candidate is the absent marker
(undefined) the key is removed from a shallow copy of the current container,
otherwise the key is set to the candidate on a shallow copy; the container
kind follows specWritebackKind. -/
def specChildWriteback (h : Heap) (cur : JVal) (k : String) (cand : JVal) :
    Heap × JVal :=
  let fs :=
    if cand = JVal.prim .undefined then removeKeyF (fieldsOf h cur) k
    else setKeyF (fieldsOf h cur) k cand
  allocObj h (specWritebackKind h cur k) fs (schemaOf h cur)

/-- Modelled from the spec: a write issued on the view at `path` under the
missing current pointer.ts revision.  Each node runs the full write
algorithm: reference-equality no-op guard; store; unless suppressed, the
write-back callback builds the new parent container and calls the parent
own write of the node (so the bubble itself is a chain of full writes); then the
node triggers its own subscribers and fans the new value out to its cached
children with bubble-up suppressed.  An ancestor reached by the bubble
triggers before the node below it because the child only triggers after its
write-back call has returned. -/
def specWriteAt (n : PNode) (h : Heap) (selfPath : Path) (path : Path)
    (v : JVal) : WriteResult :=
  match path with
  | [] =>
      if v = n.value then ⟨n, h, [], false, n.value⟩
      else
        let r := fanWrite n h selfPath v
        ⟨r.1, h, r.2, true, v⟩
  | k :: rest =>
      match lookupChild n.children k with
      | none => ⟨n, h, [], false, n.value⟩
      | some c =>
          let d := specWriteAt c h (selfPath ++ [k]) rest v
          if d.changed then
            let wb := specChildWriteback d.heap n.value k d.installed
            let n1 := PNode.mk n.value (replaceChild n.children k d.node)
            let r := fanWrite n1 wb.1 selfPath wb.2
            ⟨r.1, wb.1, r.2 ++ d.logs, true, wb.2⟩
          else
            ⟨.mk n.value (replaceChild n.children k d.node), d.heap, d.logs,
              false, n.value⟩

/-!
Section: Concrete scenario for the bubble/fan-out claim

Root value at heap id 0 is a record with key a referring to heap id 1 (a
record with b = 1) and an additional sibling key c holding the primitive 7.
The root view, the child view a, the grandchild view a.b and the sibling
child view c are all materialized (each holds a registered subscriber).
-/

namespace C1

/-- Initial heap for the scenario. -/
def heap0 : Heap :=
  [⟨.record, [("a", .ref 1), ("c", .prim (.num 7))], []⟩,
   ⟨.record, [("b", .prim (.num 1))], []⟩]

/-- Materialized grandchild view a.b. -/
def bNode : PNode := .mk (.prim (.num 1)) []

/-- Materialized sibling child view c. -/
def cNode : PNode := .mk (.prim (.num 7)) []

/-- Materialized child view a. -/
def aNode : PNode := .mk (.ref 1) [("b", bNode)]

/-- The root view with both children materialized. -/
def rootNode : PNode := .mk (.ref 0) [("a", aNode), ("c", cNode)]

/-- Writing 2 through the a.b child view. -/
def write : WriteResult := specWriteAt rootNode heap0 [] ["a", "b"] (.prim (.num 2))

end C1

/-!
Section: The copy-on-write mutator (mutate.ts)

mutate hands the edit routine a facade (revocable proxy) over a shallow
clone of the value.  Reading a nested container through a facade clones it
on first access and yields its facade; assignments resolve facades and
already-cloned originals to the underlying clone.  After the routine
returns, the facades are revoked and every clone is frozen.

The edit routine is modelled as a straight-line script over registers: the
locals of the routine.  Register 0 initially holds the facade of the top-level
clone; a get appends the value it reads as a new register.
-/

namespace Mut

/-- An object in the mutator heap: container kind, own fields, frozen flag. -/
structure MObj where
  kind : JKind
  fields : List (String × JVal)
  frozen : Bool
  deriving DecidableEq, Repr

/-- The mutator heap: object ids are list indices; allocation appends. -/
abbrev MHeap := List MObj

/-- A value held in one of the locals of the edit routine: a primitive, a raw
object reference captured from outside the call, a callable, or a facade
(each facade wraps exactly one clone, so it is identified by its clone id). -/
inductive SVal where
  | prim (p : JPrim)
  | ref (id : Nat)
  | fn (id : Nat)
  | proxy (cloneId : Nat)
  deriving DecidableEq, Repr

/-- The value assigned by a set command: a primitive literal, the content of
a register, or an object captured from outside the mutate call. -/
inductive MSrc where
  | lit (p : JPrim)
  | reg (r : Nat)
  | ext (id : Nat)
  deriving DecidableEq, Repr

/-- One step of the edit routine against the facade. -/
inductive MCmd where
  | get (r : Nat) (k : String)
  | set (r : Nat) (k : String) (src : MSrc)
  deriving DecidableEq, Repr

/-- The running state of the mutator: the heap, the proxies cache (object id,
original or clone, mapped to the id of its clone, whose facade the cache
returns), and the registers of the routine. -/
structure MState where
  heap : MHeap
  proxies : List (Nat × Nat)
  regs : List SVal
  deriving DecidableEq, Repr

/-- First-match lookup in the proxies cache. -/
def lookupP (ps : List (Nat × Nat)) (o : Nat) : Option Nat :=
  match ps with
  | [] => none
  | (o1, c) :: rest => if o1 = o then some c else lookupP rest o

/-- Own fields of the object at an id. -/
def fieldsAt (h : MHeap) (i : Nat) : List (String × JVal) :=
  match h.get? i with
  | some o => o.fields
  | none => []

/-- Write one field of the object at an id. -/
def heapSet (h : MHeap) (i : Nat) (k : String) (v : JVal) : MHeap :=
  match h.get? i with
  | some o => h.set i ⟨o.kind, setKeyF o.fields k v, o.frozen⟩
  | none => h

/-- proxyClone from mutate.ts: shallow-clone the object at `o` (an array
copy, or a property-descriptor copy with writability restored — in both
cases the same kind and fields, not frozen), cache the facade for both the
original and the clone, and record the clone as the target of the facade. -/
def proxyClone (st : MState) (o : Nat) : MState × Nat :=
  let c := st.heap.length
  let obj : MObj :=
    match st.heap.get? o with
    | some ob => ⟨ob.kind, ob.fields, false⟩
    | none => ⟨.record, [], false⟩
  (⟨st.heap ++ [obj], st.proxies ++ [(o, c), (c, c)], st.regs⟩, c)

/-- The facade get trap from mutate.ts, reading field `k` of the value held
in register `r` and appending the result as a new register.  A non-object
field value is returned as stored; an object field is cloned on first
access, the field of the enclosing clone is redirected to the new clone, and its
facade is returned.  Reads on a register that does not hold a facade yield
undefined (the raw originals are frozen and no claim reads through them). -/
def trapGet (st : MState) (r : Nat) (k : String) : MState :=
  match st.regs.get? r with
  | some (SVal.proxy c) =>
      match lookupF (fieldsAt st.heap c) k with
      | some (JVal.ref o) =>
          match lookupP st.proxies o with
          | some c1 => ⟨st.heap, st.proxies, st.regs ++ [SVal.proxy c1]⟩
          | none =>
              let pc := proxyClone st o
              ⟨heapSet pc.1.heap c k (JVal.ref pc.2), pc.1.proxies,
                pc.1.regs ++ [SVal.proxy pc.2]⟩
      | some (JVal.prim p) => ⟨st.heap, st.proxies, st.regs ++ [SVal.prim p]⟩
      | some (JVal.func f) => ⟨st.heap, st.proxies, st.regs ++ [SVal.fn f]⟩
      | none => ⟨st.heap, st.proxies, st.regs ++ [SVal.prim .undefined]⟩
  | _ => ⟨st.heap, st.proxies, st.regs ++ [SVal.prim .undefined]⟩

/-- The value resolution of the facade set trap from mutate.ts: an object that
already has a facade resolves to its clone, a facade resolves to its clone,
anything else is stored as given — so no facade and no stale pre-clone
reference ever reaches a stored field. -/
def resolveSet (st : MState) (v : SVal) : JVal :=
  match v with
  | .prim p => .prim p
  | .fn f => .func f
  | .proxy c => .ref c
  | .ref o =>
      match lookupP st.proxies o with
      | some c => .ref c
      | none => .ref o

/-- The facade set trap from mutate.ts: assign field `k` of the clone behind
the facade in register `r`.  Assignments through anything but a facade are
rejected by the frozen originals and are modelled as no-ops. -/
def trapSet (st : MState) (r : Nat) (k : String) (src : MSrc) : MState :=
  match st.regs.get? r with
  | some (SVal.proxy c) =>
      let v :=
        match src with
        | .lit p => JVal.prim p
        | .reg r1 => resolveSet st (st.regs.getD r1 (SVal.prim .undefined))
        | .ext o => resolveSet st (SVal.ref o)
      ⟨heapSet st.heap c k v, st.proxies, st.regs⟩
  | _ => st

/-- Run the edit routine. -/
def runCmds (cmds : List MCmd) (st : MState) : MState :=
  match cmds with
  | [] => st
  | MCmd.get r k :: rest => runCmds rest (trapGet st r k)
  | MCmd.set r k s :: rest => runCmds rest (trapSet st r k s)

/-- Freeze the object at position `i` when its id is listed. -/
def freezeIf (ids : List Nat) (i : Nat) (o : MObj) : MObj :=
  if i ∈ ids then ⟨o.kind, o.fields, true⟩ else o

/-- Freeze every listed object of the heap (position-indexed walk). -/
def freezeFrom (ids : List Nat) (i : Nat) : MHeap → MHeap
  | [] => []
  | o :: rest => freezeIf ids i o :: freezeFrom ids (i + 1) rest

/-- Freeze all clones recorded as facade targets. -/
def freezeClones (h : MHeap) (ids : List Nat) : MHeap := freezeFrom ids 0 h

/-- Invariant of the mutator run over a heap whose objects at entry are
those of h0: the heap only grows, the entry objects are never modified,
every facade target is a clone allocated during the call, every id
allocated during the call is a facade target, and every facade held in a
register wraps such a clone. -/
def inv (h0 : MHeap) (st : MState) : Prop :=
  h0.length ≤ st.heap.length ∧
  (∀ i, i < h0.length → st.heap.get? i = h0.get? i) ∧
  (∀ pr, pr ∈ st.proxies → h0.length ≤ pr.2 ∧ pr.2 < st.heap.length) ∧
  (∀ i, h0.length ≤ i → i < st.heap.length → i ∈ st.proxies.map Prod.snd) ∧
  (∀ c, SVal.proxy c ∈ st.regs → h0.length ≤ c ∧ c < st.heap.length)

/-- mutate from mutate.ts: eagerly clone the top-level value and hand its
facade to the edit routine as register 0, run the routine, revoke the
facades, freeze every clone created during the call, and return the
top-level clone (whose id is the size of the heap at entry). -/
def mutate (h : MHeap) (rootId : Nat) (cmds : List MCmd) : MHeap × Nat :=
  let pc := proxyClone ⟨h, [], []⟩ rootId
  let st0 : MState := ⟨pc.1.heap, pc.1.proxies, [SVal.proxy pc.2]⟩
  let st1 := runCmds cmds st0
  (freezeClones st1.heap (st1.proxies.map Prod.snd), pc.2)

end Mut

/-!
Concrete copy-on-write scenario: a record (id 0) with field a referring to
id 1 (a record with b = 1) and field c referring to id 2 (a record with
x = 1).
-/

namespace C2

/-- Initial heap of the scenario. -/
def heap0 : Mut.MHeap :=
  [⟨.record, [("a", .ref 1), ("c", .ref 2)], false⟩,
   ⟨.record, [("b", .prim (.num 1))], false⟩,
   ⟨.record, [("x", .prim (.num 1))], false⟩]

/-- The edit routine v.a.b = 2: read field a through the facade (register 1)
and assign 2 to its field b. -/
def editScript : List Mut.MCmd :=
  [.get 0 "a", .set 1 "b" (.lit (.num 2))]

/-- Running the mutator on the scenario. -/
def run : Mut.MHeap × Nat := Mut.mutate heap0 0 editScript

end C2

/-!
Section: The subscriber registry (subscriber.ts)

Listener handles are weak references: a handle holds its target id and a
liveness flag; deref yields the target only while the flag is set.  Garbage
collection of a listener is modelled by expiring every handle to it.
-/

namespace Reg

/-- A weakly held listener handle. -/
structure Handle where
  target : Nat
  alive : Bool
  deriving DecidableEq, Repr

/-- The subscriber registry: a view id mapped to its ordered handles. -/
abbrev Registry := List (Nat × List Handle)

/-- First-match entry lookup (the WeakMap get). -/
def lookupR (reg : Registry) (p : Nat) : Option (List Handle) :=
  match reg with
  | [] => none
  | (p1, hs) :: rest => if p1 = p then some hs else lookupR rest p

/-- The WeakMap set: replace the first entry for the key, or append one. -/
def setR (reg : Registry) (p : Nat) (hs : List Handle) : Registry :=
  match reg with
  | [] => [(p, hs)]
  | (p1, hs1) :: rest =>
      if p1 = p then (p1, hs) :: rest else (p1, hs1) :: setR rest p hs

/-- The WeakMap delete: drop the entry for the key. -/
def delR (reg : Registry) (p : Nat) : Registry :=
  match reg with
  | [] => []
  | (p1, hs) :: rest => if p1 = p then delR rest p else (p1, hs) :: delR rest p

/-- The pruning predicate shared by both operations: a handle is kept when
it is still live and its target is not the given listener. -/
def keepHandle (s : Nat) (hh : Handle) : Bool :=
  hh.alive ∧ hh.target ≠ s

/-- subscribersAdd from subscriber.ts: prune expired handles and any live
handle for the same listener from the entry of the view, then append one
fresh (live) handle for the listener. -/
def subscribersAdd (reg : Registry) (p : Nat) (s : Nat) : Registry :=
  let subs := ((lookupR reg p).getD []).filter (keepHandle s)
  setR reg p (subs ++ [⟨s, true⟩])

/-- subscribersRemove from subscriber.ts: when the view has an entry, keep
only live handles of other listeners; delete the entry itself when nothing
remains, otherwise store the filtered list. -/
def subscribersRemove (reg : Registry) (p : Nat) (s : Nat) : Registry :=
  match lookupR reg p with
  | none => reg
  | some subs =>
      let newSubs := subs.filter (keepHandle s)
      if newSubs = [] then delR reg p else setR reg p newSubs

/-- Garbage collection of listener `s`: every weak handle to it expires. -/
def expireListener (reg : Registry) (s : Nat) : Registry :=
  reg.map (fun e =>
    (e.1, e.2.map (fun hh => if hh.target = s then ⟨hh.target, false⟩ else hh)))

/-- The live handles of an entry. -/
def liveHandles (hs : List Handle) : List Handle :=
  hs.filter (fun hh => hh.alive)

/-- Concrete registry run: subscribe listener 5 to view 1, let listener 5 be
collected, then subscribe listener 7 to view 2. -/
def staleRun : Registry :=
  subscribersAdd (expireListener (subscribersAdd [] 1 5) 5) 2 7

end Reg

/-!
Section: The render-tracking wrapper (ptrs.ts)

The module-wide tracking state holds the watchUsedPointers flag and the
usedPointers set.  A component is modelled by the list of views it reads
while rendering: every pointer read during an active tracking scope adds the
view to the used set.
-/

namespace Track

/-- The module-wide tracking state of ptrs.ts. -/
structure TrackState where
  watch : Bool
  used : List Path
  deriving DecidableEq, Repr

/-- Usage faults of the tracking wrapper. -/
inductive TrackErr where
  | reentrantTracking
  deriving DecidableEq, Repr

/-- ptrs from ptrs.ts, rendering a wrapped component once: when a tracking
scope is already active the wrapper throws synchronously before doing
anything; otherwise it turns the flag on, runs the component (whose pointer
reads fill the used set), then turns the flag off, hands the used views to
usePointer for subscription (the middle component of the result) and clears
the set. -/
def ptrs (st : TrackState) (componentReads : List Path) :
    TrackState × List Path × Except TrackErr Unit :=
  if st.watch then (st, [], .error .reentrantTracking)
  else
    let used1 := st.used ++ componentReads
    (⟨false, []⟩, used1, .ok ())

end Track

/-!
Section: Theorems
-/

theorem PNode.eta (n : PNode) : PNode.mk n.value n.children = n := by
  cases n
  rfl

theorem PNode.value_mk (v : JVal) (cs : List (String × PNode)) :
    (PNode.mk v cs).value = v := rfl

theorem PNode.children_mk (v : JVal) (cs : List (String × PNode)) :
    (PNode.mk v cs).children = cs := rfl

theorem lookupChild_cons (k1 : String) (c1 : PNode) (rest : List (String × PNode))
    (k : String) :
    lookupChild ((k1, c1) :: rest) k = if k1 = k then some c1 else lookupChild rest k := rfl

theorem replaceChild_self (cs : List (String × PNode)) (k : String) (c : PNode)
    (h : lookupChild cs k = some c) : replaceChild cs k c = cs := by
  induction cs with
  | nil => rfl
  | cons kc rest ih =>
    obtain ⟨k1, c1⟩ := kc
    by_cases hk : k1 = k
    · rw [lookupChild_cons, if_pos hk] at h
      simp only [replaceChild, if_pos hk]
      simp only [Option.some.injEq] at h
      rw [h]
    · rw [lookupChild_cons, if_neg hk] at h
      simp only [replaceChild, if_neg hk]
      rw [ih h]

theorem lookupChild_replaceChild (cs : List (String × PNode)) (k : String)
    (c c1 : PNode) (h : lookupChild cs k = some c) :
    lookupChild (replaceChild cs k c1) k = some c1 := by
  induction cs with
  | nil => simp [lookupChild] at h
  | cons kc rest ih =>
    obtain ⟨k1, c2⟩ := kc
    by_cases hk : k1 = k
    · simp only [replaceChild, if_pos hk]
      rw [lookupChild_cons, if_pos hk]
    · rw [lookupChild_cons, if_neg hk] at h
      simp only [replaceChild, if_neg hk]
      rw [lookupChild_cons, if_neg hk]
      exact ih h

theorem fanWrite_self (n : PNode) (h : Heap) (sp : Path) :
    fanWrite n h sp n.value = (n, []) := by
  cases n with
  | mk v cs => simp [fanWrite, PNode.value]

theorem fanWrite_ne (n : PNode) (h : Heap) (sp : Path) (v : JVal)
    (hv : v ≠ n.value) :
    fanWrite n h sp v =
      (PNode.mk v (fanWriteList n.children h sp v).1,
        sp :: (fanWriteList n.children h sp v).2) := by
  cases n with
  | mk w cs =>
    simp only [PNode.value] at hv
    simp [fanWrite, PNode.children, hv]

/--
C1: for the root view over the record with a = (record with b = 1) and an
additional sibling key c, with subscribers held on the root view, on child
view a, on grandchild view a.b and on sibling child view c, writing 2
through the a.b child view (under the spec-modelled write semantics of the
missing current pointer.ts revision, where the child write-back calls the
own write of the parent node) makes the root read the record with a = (record
with b = 2) and c unchanged, triggers the subscribers of the root, of a and
of a.b exactly once each, and never triggers the subscriber registered on
the sibling key c.
-/
theorem claim1_bubble_fanout :
    C1.write.logs.count [] = 1 ∧
    C1.write.logs.count ["a"] = 1 ∧
    C1.write.logs.count ["a", "b"] = 1 ∧
    C1.write.logs.count ["c"] = 0 ∧
    fieldsOf C1.write.heap (jsGet C1.write.heap C1.write.node.value "a") =
      [("b", JVal.prim (JPrim.num 2))] ∧
    jsGet C1.write.heap C1.write.node.value "c" = JVal.prim (JPrim.num 7) ∧
    C1.write.node.value ≠ JVal.ref 0 := by
  decide

/--
C3: for every view, a write whose argument is reference-identical to the
currently stored snapshot is a complete no-op — tree, heap and trigger log
are untouched — and a write whose argument is not reference-identical (even
if structurally equal: equality here is on the identity-carrying value type)
installs the new value at the view and triggers the subscribers of that view
(its path heads the trigger log); so the no-op holds if and only if the
argument is reference-identical.
-/
theorem claim3_write_noop_iff_identical (n : PNode) (h : Heap) (sp path : Path)
    (v : JVal) (t : PNode) (ht : lookupPath n path = some t) :
    (v = t.value → srcWriteAt n h sp path v = ⟨n, h, [], false, n.value⟩) ∧
    (v ≠ t.value →
      (srcWriteAt n h sp path v).changed = true ∧
      valueAt (srcWriteAt n h sp path v).node path = some v ∧
      (srcWriteAt n h sp path v).logs.head? = some (sp ++ path)) := by
  induction path generalizing n sp t with
  | nil =>
    simp only [lookupPath, Option.some.injEq] at ht
    subst ht
    constructor
    · intro hv
      simp [srcWriteAt, hv]
    · intro hv
      rw [srcWriteAt, if_neg hv]
      refine ⟨rfl, ?_, ?_⟩
      · rw [fanWrite_ne n h sp v hv]
        rfl
      · rw [fanWrite_ne n h sp v hv]
        simp
  | cons k rest ih =>
    rw [lookupPath] at ht
    cases hc : lookupChild n.children k with
    | none => rw [hc] at ht; cases ht
    | some c =>
      rw [hc] at ht
      have IH := ih c (sp ++ [k]) t ht
      constructor
      · intro hv
        have hd := IH.1 hv
        rw [srcWriteAt, hc]
        simp only [hd]
        rw [replaceChild_self n.children k c hc, PNode.eta]
        simp
      · intro hv
        have hd := IH.2 hv
        rw [srcWriteAt, hc]
        simp only [hd.1, if_pos]
        refine ⟨trivial, ?_, ?_⟩
        · have h2 := hd.2.1
          rw [valueAt] at h2
          show valueAt (PNode.mk (srcChildWriteback
              (srcWriteAt c h (sp ++ [k]) rest v).heap n.value k
              (srcWriteAt c h (sp ++ [k]) rest v).installed).2
              (replaceChild n.children k
                (srcWriteAt c h (sp ++ [k]) rest v).node)) (k :: rest) = some v
          rw [valueAt, lookupPath]
          simp only [PNode.children_mk]
          rw [lookupChild_replaceChild n.children k c _ hc]
          exact h2
        · show ((srcWriteAt c h (sp ++ [k]) rest v).logs).head? = some (sp ++ k :: rest)
          rw [hd.2.2]
          simp

theorem get?_append_len {α : Type} (l : List α) (a : α) :
    (l ++ [a]).get? l.length = some a := by
  rw [List.get?_eq_getElem?]
  exact List.getElem?_concat_length l a

theorem get?_append_lt {α : Type} (l l2 : List α) (i : Nat) (hi : i < l.length) :
    (l ++ l2).get? i = l.get? i := by
  rw [List.get?_eq_getElem?, List.get?_eq_getElem?]
  exact List.getElem?_append_left hi

theorem writeNoBubbleAt_target (path : Path) (n : PNode) (h : Heap) (sp : Path)
    (v : JVal) (t : PNode) (ht : lookupPath n path = some t)
    (hv : v ≠ t.value) :
    valueAt (writeNoBubbleAt n h sp path v).1 path = some v ∧
    (writeNoBubbleAt n h sp path v).2.head? = some (sp ++ path) := by
  induction path generalizing n sp t with
  | nil =>
    simp only [lookupPath, Option.some.injEq] at ht
    subst ht
    rw [writeNoBubbleAt, fanWrite_ne n h sp v hv]
    constructor
    · rfl
    · simp
  | cons k rest ih =>
    rw [lookupPath] at ht
    cases hc : lookupChild n.children k with
    | none => rw [hc] at ht; cases ht
    | some c =>
      rw [hc] at ht
      have IH := ih c (sp ++ [k]) t ht hv
      rw [writeNoBubbleAt, hc]
      constructor
      · rw [valueAt, lookupPath]
        simp only [PNode.children_mk]
        rw [lookupChild_replaceChild n.children k c _ hc]
        have h2 := IH.1
        rw [valueAt] at h2
        exact h2
      · show ((writeNoBubbleAt c h (sp ++ [k]) rest v).2).head? = some (sp ++ k :: rest)
        rw [IH.2]
        simp

theorem writeNoBubbleAt_ancestor (q : Path) (path : Path) (n : PNode) (h : Heap)
    (sp : Path) (v : JVal) (hq : ancestorOf q path) :
    valueAt (writeNoBubbleAt n h sp path v).1 q = valueAt n q := by
  induction q generalizing n sp path with
  | nil =>
    obtain ⟨k, r, hkr⟩ := hq
    subst hkr
    simp only [List.nil_append]
    rw [writeNoBubbleAt]
    cases hc : lookupChild n.children k with
    | none => rfl
    | some c =>
      rw [valueAt, valueAt, lookupPath, lookupPath]
      rfl
  | cons k1 q1 ih =>
    obtain ⟨k, r, hkr⟩ := hq
    cases path with
    | nil => cases hkr
    | cons kp restp =>
      have hk1 : k1 = kp := by
        have := hkr
        simp only [List.cons_append, List.cons.injEq] at this
        exact this.1
      subst hk1
      have hrest : q1 ++ k :: r = restp := by
        have := hkr
        simp only [List.cons_append, List.cons.injEq] at this
        exact this.2
      rw [writeNoBubbleAt]
      cases hc : lookupChild n.children k1 with
      | none => rfl
      | some c =>
        have hn : valueAt n (k1 :: q1) = valueAt c q1 := by
          rw [valueAt, lookupPath, hc]
          rw [valueAt]
        rw [hn]
        rw [valueAt, lookupPath]
        simp only [PNode.children_mk]
        rw [lookupChild_replaceChild n.children k1 c _ hc]
        have IH := ih restp c (sp ++ [k1]) ⟨k, r, hrest⟩
        rw [valueAt, valueAt] at IH
        exact IH

/-- Witness for the write no-op claim: a concrete one-level tree where the
non-identical direction installs the value and logs the trigger. -/
theorem claim3_witness :
    (JVal.prim (JPrim.num 2)) ≠ (PNode.mk (JVal.prim (JPrim.num 1)) []).value ∧
    (srcWriteAt (PNode.mk (JVal.ref 0)
        [("x", PNode.mk (JVal.prim (JPrim.num 1)) [])])
        [⟨.record, [("x", JVal.prim (JPrim.num 1))], []⟩] [] ["x"]
        (JVal.prim (JPrim.num 2))).changed = true := by
  constructor
  · decide
  · exact ((claim3_write_noop_iff_identical
      (PNode.mk (JVal.ref 0) [("x", PNode.mk (JVal.prim (JPrim.num 1)) [])])
      [⟨.record, [("x", JVal.prim (JPrim.num 1))], []⟩] [] ["x"]
      (JVal.prim (JPrim.num 2))
      (PNode.mk (JVal.prim (JPrim.num 1)) []) rfl).2 (by decide)).1

/--
C9: invoking a mutate-class method through a view runs the callable through
the mutator and updates only the snapshot of the view owning the method:
afterwards the stored value of the owner is the mutator result and the
subscribers fire (its path heads the trigger log), the call returns the
captured return value, the heap is untouched, and — because upward
write-back is suppressed during the write-back to the owner — the
owner parent and every further ancestor still hold their previous snapshots.
-/
theorem claim9_mutate_method_no_ancestor_fold
    (fnPure : JVal → List JVal → JVal)
    (fnMutate : JVal → List JVal → JVal × JVal)
    (arrNative : String → List (String × JVal) → List JVal → List (String × JVal) × JVal)
    (arrPure : String → List (String × JVal) → List JVal → JVal)
    (root : PNode) (h : Heap) (ownerPath : Path) (name : String)
    (args : List JVal) (owner selfNode : PNode) (f : Nat) (newThis ret : JVal)
    (h1 : lookupPath root ownerPath = some owner)
    (h2 : lookupPath root (ownerPath ++ [name]) = some selfNode)
    (h3 : selfNode.value = JVal.func f)
    (h4 : isArrayVal h owner.value = false)
    (h5 : getPropertyType h owner.value name selfNode.value = PropType.mutate)
    (h6 : fnMutate owner.value args = (newThis, ret))
    (h7 : newThis ≠ owner.value) :
    (applyTrap fnPure fnMutate arrNative arrPure root h ownerPath name args).result
        = Except.ok ret ∧
    (applyTrap fnPure fnMutate arrNative arrPure root h ownerPath name args).heap = h ∧
    valueAt (applyTrap fnPure fnMutate arrNative arrPure root h ownerPath name args).node
        ownerPath = some newThis ∧
    (applyTrap fnPure fnMutate arrNative arrPure root h ownerPath name args).logs.head?
        = some ownerPath ∧
    ∀ q, ancestorOf q ownerPath →
      valueAt (applyTrap fnPure fnMutate arrNative arrPure root h ownerPath name args).node q
        = valueAt root q := by
  have hfn : isFunc selfNode.value = true := by rw [h3]; rfl
  have hnp : getPropertyType h owner.value name selfNode.value ≠ PropType.pointer := by
    rw [h5]; decide
  have hnr : ¬ getPropertyType h owner.value name selfNode.value = PropType.readonly := by
    rw [h5]; decide
  have hR : applyTrap fnPure fnMutate arrNative arrPure root h ownerPath name args
      = ⟨(writeNoBubbleAt root h [] ownerPath newThis).1, h,
         (writeNoBubbleAt root h [] ownerPath newThis).2, Except.ok ret⟩ := by
    simp only [applyTrap, h1, h2]
    rw [if_neg (by simp [h4]), if_pos ⟨hfn, hnp⟩, if_neg hnr, h6]
  rw [hR]
  refine ⟨rfl, rfl, ?_, ?_, ?_⟩
  · exact (writeNoBubbleAt_target ownerPath root h [] newThis owner h1 h7).1
  · have := (writeNoBubbleAt_target ownerPath root h [] newThis owner h1 h7).2
    simpa using this
  · intro q hq
    exact writeNoBubbleAt_ancestor q ownerPath root h [] newThis hq

/-- Witness for the mutate-method claim: a one-object record with a method,
where the mutator result replaces the owner snapshot. -/
theorem claim9_witness :
    valueAt (applyTrap (fun v _ => v) (fun _ _ => (JVal.ref 1, JVal.prim (JPrim.num 3)))
        (fun _ fs _ => (fs, JVal.prim JPrim.undefined)) (fun _ _ _ => JVal.prim JPrim.undefined)
        (PNode.mk (JVal.ref 0) [("inc", PNode.mk (JVal.func 0) [])])
        [⟨.record, [("amount", JVal.prim (JPrim.num 1)), ("inc", JVal.func 0)], []⟩]
        [] "inc" []).node [] = some (JVal.ref 1) := by
  exact (claim9_mutate_method_no_ancestor_fold
    (fun v _ => v) (fun _ _ => (JVal.ref 1, JVal.prim (JPrim.num 3)))
    (fun _ fs _ => (fs, JVal.prim JPrim.undefined)) (fun _ _ _ => JVal.prim JPrim.undefined)
    (PNode.mk (JVal.ref 0) [("inc", PNode.mk (JVal.func 0) [])])
    [⟨.record, [("amount", JVal.prim (JPrim.num 1)), ("inc", JVal.func 0)], []⟩]
    [] "inc" []
    (PNode.mk (JVal.ref 0) [("inc", PNode.mk (JVal.func 0) [])])
    (PNode.mk (JVal.func 0) []) 0 (JVal.ref 1) (JVal.prim (JPrim.num 3))
    rfl rfl rfl (by decide) (by decide) rfl (by decide)).2.2.1

/--
C6: invoking a method whose schema entry is readonly runs the callable with
the current (frozen) snapshot of the enclosing view as its context and
returns its result, without cloning or writing back: the tree and heap are
returned untouched (so the enclosing view still reads the same snapshot
reference) and the trigger log is empty, so no subscriber of any view fires.
-/
theorem claim6_readonly_method_pure
    (fnPure : JVal → List JVal → JVal)
    (fnMutate : JVal → List JVal → JVal × JVal)
    (arrNative : String → List (String × JVal) → List JVal → List (String × JVal) × JVal)
    (arrPure : String → List (String × JVal) → List JVal → JVal)
    (root : PNode) (h : Heap) (ownerPath : Path) (name : String)
    (args : List JVal) (owner selfNode : PNode) (f : Nat)
    (h1 : lookupPath root ownerPath = some owner)
    (h2 : lookupPath root (ownerPath ++ [name]) = some selfNode)
    (h3 : selfNode.value = JVal.func f)
    (h4 : isArrayVal h owner.value = false)
    (h5 : getPropertyType h owner.value name selfNode.value = PropType.readonly) :
    applyTrap fnPure fnMutate arrNative arrPure root h ownerPath name args
      = ⟨root, h, [], Except.ok (fnPure owner.value args)⟩ := by
  have hfn : isFunc selfNode.value = true := by rw [h3]; rfl
  have hnp : getPropertyType h owner.value name selfNode.value ≠ PropType.pointer := by
    rw [h5]; decide
  simp only [applyTrap, h1, h2]
  rw [if_neg (by simp [h4]), if_pos ⟨hfn, hnp⟩, if_pos h5]

/-- Witness for the readonly-method claim: a record with a method declared
readonly in its schema; the invocation leaves everything unchanged and
returns the callable applied to the owner snapshot. -/
theorem claim6_witness :
    applyTrap (fun v _ => v) (fun v _ => (v, v))
        (fun _ fs _ => (fs, JVal.prim JPrim.undefined)) (fun _ _ _ => JVal.prim JPrim.undefined)
        (PNode.mk (JVal.ref 0) [("cur", PNode.mk (JVal.func 0) [])])
        [⟨.record, [("amount", JVal.prim (JPrim.num 1)), ("cur", JVal.func 0)],
          [("cur", PropType.readonly)]⟩]
        [] "cur" []
      = ⟨PNode.mk (JVal.ref 0) [("cur", PNode.mk (JVal.func 0) [])],
         [⟨.record, [("amount", JVal.prim (JPrim.num 1)), ("cur", JVal.func 0)],
           [("cur", PropType.readonly)]⟩],
         [], Except.ok (JVal.ref 0)⟩ := by
  exact claim6_readonly_method_pure (fun v _ => v) (fun v _ => (v, v))
    (fun _ fs _ => (fs, JVal.prim JPrim.undefined)) (fun _ _ _ => JVal.prim JPrim.undefined)
    (PNode.mk (JVal.ref 0) [("cur", PNode.mk (JVal.func 0) [])])
    [⟨.record, [("amount", JVal.prim (JPrim.num 1)), ("cur", JVal.func 0)],
      [("cur", PropType.readonly)]⟩]
    [] "cur" []
    (PNode.mk (JVal.ref 0) [("cur", PNode.mk (JVal.func 0) [])])
    (PNode.mk (JVal.func 0) []) 0
    rfl rfl rfl (by decide) (by decide)

/--
C10: calling a native sequence method that is not in the mutating allow-list
(join, for example) through an array view runs the method against the
current array snapshot and returns its native result, while the tree and
heap are returned untouched (the stored snapshot stays reference-identical)
and the trigger log is empty, so no subscriber fires.
-/
theorem claim10_nonmutating_array_method
    (fnPure : JVal → List JVal → JVal)
    (fnMutate : JVal → List JVal → JVal × JVal)
    (arrNative : String → List (String × JVal) → List JVal → List (String × JVal) × JVal)
    (arrPure : String → List (String × JVal) → List JVal → JVal)
    (root : PNode) (h : Heap) (ownerPath : Path) (name : String)
    (args : List JVal) (owner selfNode : PNode)
    (h1 : lookupPath root ownerPath = some owner)
    (h2 : lookupPath root (ownerPath ++ [name]) = some selfNode)
    (h4 : isArrayVal h owner.value = true)
    (h5 : name ∈ arrayProtoProps)
    (h6 : name ∉ ARRAY_MUTATING) :
    applyTrap fnPure fnMutate arrNative arrPure root h ownerPath name args
      = ⟨root, h, [], Except.ok (arrPure name (fieldsOf h owner.value) args)⟩ := by
  simp only [applyTrap, h1, h2]
  rw [if_pos ⟨by simp [h4], h5⟩, if_neg h6]

/-- Witness for the non-mutating array method claim: join on a two-element
array view leaves the snapshot untouched and yields the native result. -/
theorem claim10_witness :
    applyTrap (fun v _ => v) (fun v _ => (v, v))
        (fun _ fs _ => (fs, JVal.prim JPrim.undefined))
        (fun _ _ _ => JVal.prim (JPrim.str "Hello World"))
        (PNode.mk (JVal.ref 0) [("join", PNode.mk (JVal.prim JPrim.undefined) [])])
        [⟨.array, [("0", JVal.prim (JPrim.str "Hello")), ("1", JVal.prim (JPrim.str "World"))], []⟩]
        [] "join" [JVal.prim (JPrim.str " ")]
      = ⟨PNode.mk (JVal.ref 0) [("join", PNode.mk (JVal.prim JPrim.undefined) [])],
         [⟨.array, [("0", JVal.prim (JPrim.str "Hello")), ("1", JVal.prim (JPrim.str "World"))], []⟩],
         [], Except.ok (JVal.prim (JPrim.str "Hello World"))⟩ := by
  exact claim10_nonmutating_array_method (fun v _ => v) (fun v _ => (v, v))
    (fun _ fs _ => (fs, JVal.prim JPrim.undefined))
    (fun _ _ _ => JVal.prim (JPrim.str "Hello World"))
    (PNode.mk (JVal.ref 0) [("join", PNode.mk (JVal.prim JPrim.undefined) [])])
    [⟨.array, [("0", JVal.prim (JPrim.str "Hello")), ("1", JVal.prim (JPrim.str "World"))], []⟩]
    [] "join" [JVal.prim (JPrim.str " ")]
    (PNode.mk (JVal.ref 0) [("join", PNode.mk (JVal.prim JPrim.undefined) [])])
    (PNode.mk (JVal.prim JPrim.undefined) [])
    rfl rfl (by decide) (by decide) (by decide)

theorem specChildWriteback_get? (h : Heap) (cur : JVal) (k : String) (cand : JVal) :
    (specChildWriteback h cur k cand).1.get? h.length
      = some ⟨specWritebackKind h cur k,
          if cand = JVal.prim JPrim.undefined then removeKeyF (fieldsOf h cur) k
          else setKeyF (fieldsOf h cur) k cand,
          schemaOf h cur⟩ :=
  get?_append_len h _

/--
C4: the write-back callback created for a child view (spec-modelled, the
current pointer.ts revision being missing from the snapshot), given a
candidate value, builds the next parent container as follows: if the
candidate is the absent marker (undefined) it removes the key from a
shallow copy of the current container, otherwise it sets the key to the
candidate on a shallow copy; the container kind of the copy equals the current
kind of the current container, and when the current value is absent/undefined it is
array exactly when the key looks like a non-negative integer index; the
callback then installs that new container as the value of this node (through
the own write of the node).
-/
theorem claim4_spec_child_writeback (h : Heap) (cur : JVal) (k : String) (cand : JVal) :
    (cand = JVal.prim JPrim.undefined →
      ∃ o : JObj, (specChildWriteback h cur k cand).1.get? h.length = some o ∧
        o.fields = removeKeyF (fieldsOf h cur) k) ∧
    (cand ≠ JVal.prim JPrim.undefined →
      ∃ o : JObj, (specChildWriteback h cur k cand).1.get? h.length = some o ∧
        o.fields = setKeyF (fieldsOf h cur) k cand) ∧
    (∀ i co, cur = JVal.ref i → h.get? i = some co →
      ∃ o : JObj, (specChildWriteback h cur k cand).1.get? h.length = some o ∧
        o.kind = co.kind) ∧
    (cur = JVal.prim JPrim.undefined →
      ∃ o : JObj, (specChildWriteback h cur k cand).1.get? h.length = some o ∧
        (o.kind = JKind.array ↔ isIndexKey k = true)) ∧
    (specChildWriteback h cur k cand).2 = JVal.ref h.length ∧
    (∀ (n c : PNode) (sp : Path) (v : JVal),
      lookupChild n.children k = some c → v ≠ c.value →
      JVal.ref h.length ≠ n.value →
      (specWriteAt n h sp [k] v).node.value = (specChildWriteback h n.value k v).2 ∧
      (specWriteAt n h sp [k] v).heap = (specChildWriteback h n.value k v).1) := by
  refine ⟨?_, ?_, ?_, ?_, rfl, ?_⟩
  · intro hc
    exact ⟨_, specChildWriteback_get? h cur k cand, by simp [hc]⟩
  · intro hc
    exact ⟨_, specChildWriteback_get? h cur k cand, by simp [hc]⟩
  · intro i co hcur hco
    have hco2 : h[i]? = some co := by
      rw [← List.get?_eq_getElem?]
      exact hco
    exact ⟨_, specChildWriteback_get? h cur k cand, by simp [specWritebackKind, hcur, hco2]⟩
  · intro hcur
    refine ⟨_, specChildWriteback_get? h cur k cand, ?_⟩
    cases hik : isIndexKey k with
    | true => simp [specWritebackKind, hcur, hik]
    | false => simp [specWritebackKind, hcur, hik]
  · intro n c sp v hck hvc hne
    have hfan := fanWrite_ne (PNode.mk n.value (replaceChild n.children k
        (fanWrite c h (sp ++ [k]) v).1)) (specChildWriteback h n.value k v).1 sp
        (specChildWriteback h n.value k v).2 (by rw [PNode.value_mk]; exact hne)
    simp only [specWriteAt, hck]
    simp only [if_neg hvc]
    simp only [hfan]
    exact ⟨rfl, rfl⟩

/-- Witness for the child write-back claim: removing a key with the absent
marker from a concrete record, and installing a set through a one-level
write. -/
theorem claim4_witness :
    (JVal.prim JPrim.undefined = JVal.prim JPrim.undefined) ∧
    (∃ o : JObj,
      (specChildWriteback [⟨.record, [("b", JVal.prim (JPrim.num 1))], []⟩]
        (JVal.ref 0) "b" (JVal.prim JPrim.undefined)).1.get? 1 = some o ∧
      o.fields = removeKeyF (fieldsOf [⟨.record, [("b", JVal.prim (JPrim.num 1))], []⟩]
        (JVal.ref 0)) "b") := by
  constructor
  · rfl
  · exact (claim4_spec_child_writeback
      [⟨.record, [("b", JVal.prim (JPrim.num 1))], []⟩]
      (JVal.ref 0) "b" (JVal.prim JPrim.undefined)).1 rfl

namespace Mut

theorem heapSet_length (h : MHeap) (i : Nat) (k : String) (v : JVal) :
    (heapSet h i k v).length = h.length := by
  cases hg : h.get? i with
  | none => simp only [heapSet, hg]
  | some o => simp only [heapSet, hg, List.length_set]

theorem heapSet_get?_ne (h : MHeap) (i j : Nat) (k : String) (v : JVal)
    (hij : j ≠ i) : (heapSet h i k v).get? j = h.get? j := by
  cases hg : h.get? i with
  | none => simp only [heapSet, hg]
  | some o =>
    simp only [heapSet, hg]
    rw [List.get?_eq_getElem?, List.get?_eq_getElem?]
    exact List.getElem?_set_ne (fun he => hij he.symm)

theorem lookupP_mem (ps : List (Nat × Nat)) (o c : Nat) (h : lookupP ps o = some c) :
    (o, c) ∈ ps := by
  induction ps with
  | nil => cases h
  | cons pr rest ih =>
    obtain ⟨o1, c1⟩ := pr
    by_cases ho : o1 = o
    · rw [lookupP, if_pos ho] at h
      simp only [Option.some.injEq] at h
      subst ho
      subst h
      exact List.mem_cons_self _ _
    · rw [lookupP, if_neg ho] at h
      exact List.mem_cons_of_mem _ (ih h)

theorem inv_proxyClone (h0 : MHeap) (st : MState) (o : Nat) (hv : inv h0 st) :
    inv h0 (proxyClone st o).1 ∧
    h0.length ≤ (proxyClone st o).2 ∧
    (proxyClone st o).2 < (proxyClone st o).1.heap.length ∧
    (proxyClone st o).1.regs = st.regs ∧
    (proxyClone st o).1.heap.length = st.heap.length + 1 := by
  obtain ⟨hlen, hpres, hprox, hfresh, hregs⟩ := hv
  refine ⟨⟨?_, ?_, ?_, ?_, ?_⟩, ?_, ?_, rfl, ?_⟩
  · show h0.length ≤ (st.heap ++ [_]).length
    rw [List.length_append]
    omega
  · intro i hi
    show (st.heap ++ [_]).get? i = h0.get? i
    rw [get?_append_lt st.heap _ i (by omega)]
    exact hpres i hi
  · intro pr hpr
    show h0.length ≤ pr.2 ∧ pr.2 < (st.heap ++ [_]).length
    rw [List.length_append]
    have hm : pr ∈ st.proxies ∨ pr = (o, st.heap.length) ∨ pr = (st.heap.length, st.heap.length) := by
      have := hpr
      simp only [proxyClone, List.mem_append, List.mem_cons,
        List.not_mem_nil, or_false] at this
      tauto
    rcases hm with hm | hm | hm
    · have := hprox pr hm
      constructor
      · exact this.1
      · omega
    · subst hm
      refine ⟨hlen, ?_⟩
      show st.heap.length < st.heap.length + 1
      omega
    · subst hm
      refine ⟨hlen, ?_⟩
      show st.heap.length < st.heap.length + 1
      omega
  · intro i hge hlt
    show i ∈ (st.proxies ++ [(o, st.heap.length), (st.heap.length, st.heap.length)]).map Prod.snd
    rw [List.map_append]
    rw [List.mem_append]
    have hlt2 : i < st.heap.length + 1 := by
      have := hlt
      simp only [proxyClone, List.length_append, List.length_singleton] at this
      omega
    by_cases hi : i < st.heap.length
    · exact Or.inl (hfresh i hge hi)
    · have : i = st.heap.length := by omega
      subst this
      right
      simp
  · intro c hc
    show h0.length ≤ c ∧ c < (st.heap ++ [_]).length
    rw [List.length_append]
    simp only [List.length_singleton]
    have := hregs c hc
    omega
  · show h0.length ≤ st.heap.length
    exact hlen
  · show st.heap.length < (st.heap ++ [_]).length
    rw [List.length_append]
    simp only [List.length_singleton]
    omega
  · show (st.heap ++ [_]).length = st.heap.length + 1
    rw [List.length_append]
    rfl

theorem inv_push_reg (h0 : MHeap) (st : MState) (x : SVal)
    (hx : ∀ c, x = SVal.proxy c → h0.length ≤ c ∧ c < st.heap.length)
    (hv : inv h0 st) : inv h0 ⟨st.heap, st.proxies, st.regs ++ [x]⟩ := by
  obtain ⟨hlen, hpres, hprox, hfresh, hregs⟩ := hv
  refine ⟨hlen, hpres, hprox, hfresh, ?_⟩
  intro c hc
  rw [List.mem_append] at hc
  rcases hc with hc | hc
  · exact hregs c hc
  · rw [List.mem_singleton] at hc
    exact hx c hc.symm

theorem inv_trapGet (h0 : MHeap) (st : MState) (r : Nat) (k : String)
    (hv : inv h0 st) : inv h0 (trapGet st r k) := by
  cases hr : st.regs.get? r with
  | none =>
    simp only [trapGet, hr]
    exact inv_push_reg h0 st _ (fun c hc => by cases hc) hv
  | some sv =>
    cases sv with
    | prim p =>
      simp only [trapGet, hr]
      exact inv_push_reg h0 st _ (fun c hc => by cases hc) hv
    | ref o =>
      simp only [trapGet, hr]
      exact inv_push_reg h0 st _ (fun c hc => by cases hc) hv
    | fn f =>
      simp only [trapGet, hr]
      exact inv_push_reg h0 st _ (fun c hc => by cases hc) hv
    | proxy c =>
      have hcb : h0.length ≤ c ∧ c < st.heap.length :=
        hv.2.2.2.2 c (List.get?_mem hr)
      cases hf : lookupF (fieldsAt st.heap c) k with
      | none =>
        simp only [trapGet, hr, hf]
        exact inv_push_reg h0 st _ (fun c2 hc2 => by cases hc2) hv
      | some w =>
        cases w with
        | prim p =>
          simp only [trapGet, hr, hf]
          exact inv_push_reg h0 st _ (fun c2 hc2 => by cases hc2) hv
        | func f =>
          simp only [trapGet, hr, hf]
          exact inv_push_reg h0 st _ (fun c2 hc2 => by cases hc2) hv
        | ref o =>
          cases hp : lookupP st.proxies o with
          | some c1 =>
            simp only [trapGet, hr, hf, hp]
            refine inv_push_reg h0 st _ (fun c2 hc2 => ?_) hv
            have hmem : (o, c1) ∈ st.proxies := lookupP_mem st.proxies o c1 hp
            have hb := hv.2.2.1 (o, c1) hmem
            cases hc2
            exact hb
          | none =>
            simp only [trapGet, hr, hf, hp]
            have hpc := inv_proxyClone h0 st o hv
            obtain ⟨hpcinv, hpc2ge, hpc2lt, hpcregs, hpclen⟩ := hpc
            obtain ⟨plen, ppres, pprox, pfresh, pregs⟩ := hpcinv
            have hlenset : (heapSet (proxyClone st o).1.heap c k
                (JVal.ref (proxyClone st o).2)).length = (proxyClone st o).1.heap.length :=
              heapSet_length _ _ _ _
            refine ⟨?_, ?_, ?_, ?_, ?_⟩
            · show h0.length ≤ (heapSet (proxyClone st o).1.heap c k
                (JVal.ref (proxyClone st o).2)).length
              rw [hlenset]
              exact plen
            · intro i hi
              show (heapSet (proxyClone st o).1.heap c k
                (JVal.ref (proxyClone st o).2)).get? i = h0.get? i
              rw [heapSet_get?_ne _ _ _ _ _ (by omega : i ≠ c)]
              exact ppres i hi
            · intro pr hpr
              have := pprox pr hpr
              constructor
              · exact this.1
              · rw [hlenset]
                exact this.2
            · intro i hge hlt
              rw [hlenset] at hlt
              exact pfresh i hge hlt
            · intro c2 hc2
              show h0.length ≤ c2 ∧ c2 < (heapSet (proxyClone st o).1.heap c k
                (JVal.ref (proxyClone st o).2)).length
              rw [hlenset]
              rw [List.mem_append] at hc2
              rcases hc2 with hc2 | hc2
              · rw [hpcregs] at hc2
                have := hv.2.2.2.2 c2 hc2
                constructor
                · exact this.1
                · rw [hpclen]
                  omega
              · rw [List.mem_singleton] at hc2
                cases hc2
                exact ⟨hpc2ge, hpc2lt⟩

theorem inv_trapSet (h0 : MHeap) (st : MState) (r : Nat) (k : String) (src : MSrc)
    (hv : inv h0 st) : inv h0 (trapSet st r k src) := by
  cases hr : st.regs.get? r with
  | none => simp only [trapSet, hr]; exact hv
  | some sv =>
    cases sv with
    | prim p => simp only [trapSet, hr]; exact hv
    | ref o => simp only [trapSet, hr]; exact hv
    | fn f => simp only [trapSet, hr]; exact hv
    | proxy c =>
      simp only [trapSet, hr]
      have hcb : h0.length ≤ c ∧ c < st.heap.length :=
        hv.2.2.2.2 c (List.get?_mem hr)
      obtain ⟨hlen, hpres, hprox, hfresh, hregs⟩ := hv
      have hlenset : ∀ v, (heapSet st.heap c k v).length = st.heap.length :=
        fun v => heapSet_length _ _ _ _
      refine ⟨?_, ?_, ?_, ?_, ?_⟩
      · show h0.length ≤ (heapSet st.heap c k _).length
        rw [hlenset]
        exact hlen
      · intro i hi
        show (heapSet st.heap c k _).get? i = h0.get? i
        rw [heapSet_get?_ne _ _ _ _ _ (by omega : i ≠ c)]
        exact hpres i hi
      · intro pr hpr
        have := hprox pr hpr
        constructor
        · exact this.1
        · rw [hlenset]
          exact this.2
      · intro i hge hlt
        rw [hlenset] at hlt
        exact hfresh i hge hlt
      · intro c2 hc2
        have := hregs c2 hc2
        constructor
        · exact this.1
        · rw [hlenset]
          exact this.2

theorem inv_runCmds (h0 : MHeap) (cmds : List MCmd) (st : MState)
    (hv : inv h0 st) : inv h0 (runCmds cmds st) := by
  induction cmds generalizing st with
  | nil => exact hv
  | cons c rest ih =>
    cases c with
    | get r k => exact ih (trapGet st r k) (inv_trapGet h0 st r k hv)
    | set r k src => exact ih (trapSet st r k src) (inv_trapSet h0 st r k src hv)

theorem freezeFrom_get? (ids : List Nat) (h : MHeap) : ∀ (j i : Nat),
    (freezeFrom ids j h).get? i = Option.map (freezeIf ids (j + i)) (h.get? i) := by
  induction h with
  | nil => intro j i; rfl
  | cons o rest ih =>
    intro j i
    cases i with
    | zero =>
      show some (freezeIf ids j o) = Option.map (freezeIf ids (j + 0)) (some o)
      rw [Nat.add_zero]
      rfl
    | succ i1 =>
      show (freezeFrom ids (j + 1) rest).get? i1
        = Option.map (freezeIf ids (j + (i1 + 1))) (rest.get? i1)
      rw [ih (j + 1) i1]
      have harith : j + 1 + i1 = j + (i1 + 1) := by omega
      rw [harith]

theorem freezeClones_get? (h : MHeap) (ids : List Nat) (i : Nat) :
    (freezeClones h ids).get? i = Option.map (freezeIf ids i) (h.get? i) := by
  have := freezeFrom_get? ids h 0 i
  rw [Nat.zero_add] at this
  exact this

theorem inv_init (h : MHeap) (rootId : Nat) :
    inv h ⟨(proxyClone ⟨h, [], []⟩ rootId).1.heap,
           (proxyClone ⟨h, [], []⟩ rootId).1.proxies,
           [SVal.proxy (proxyClone ⟨h, [], []⟩ rootId).2]⟩ := by
  have hbase : inv h ⟨h, [], []⟩ := by
    refine ⟨Nat.le_refl _, fun i hi => rfl, ?_, ?_, ?_⟩
    · intro pr hpr
      cases hpr
    · intro i hge hlt
      have : i < h.length := hlt
      omega
    · intro c hc
      cases hc
  have hpc := inv_proxyClone h ⟨h, [], []⟩ rootId hbase
  obtain ⟨⟨plen, ppres, pprox, pfresh, pregs⟩, hge, hlt, hregs2, hlen2⟩ := hpc
  refine ⟨plen, ppres, pprox, pfresh, ?_⟩
  intro c hc
  rw [List.mem_singleton] at hc
  cases hc
  exact ⟨hge, hlt⟩

theorem mutate_originals_preserved (h : MHeap) (rootId : Nat) (cmds : List MCmd)
    (i : Nat) (hi : i < h.length) :
    (mutate h rootId cmds).1.get? i = h.get? i := by
  have hinv := inv_runCmds h cmds _ (inv_init h rootId)
  show (freezeClones (runCmds cmds _).heap
      (List.map Prod.snd (runCmds cmds _).proxies)).get? i = h.get? i
  rw [freezeClones_get?]
  have hni : i ∉ List.map Prod.snd (runCmds cmds
      (⟨(proxyClone ⟨h, [], []⟩ rootId).1.heap,
        (proxyClone ⟨h, [], []⟩ rootId).1.proxies,
        [SVal.proxy (proxyClone ⟨h, [], []⟩ rootId).2]⟩ : MState)).proxies := by
    intro hmem
    rw [List.mem_map] at hmem
    obtain ⟨pr, hpr, hpri⟩ := hmem
    have := hinv.2.2.1 pr hpr
    omega
  rw [hinv.2.1 i hi]
  cases hg : h.get? i with
  | none => rfl
  | some o1 =>
    show some (freezeIf _ i o1) = some o1
    rw [freezeIf, if_neg hni]

theorem mutate_clones_frozen (h : MHeap) (rootId : Nat) (cmds : List MCmd)
    (i : Nat) (o : MObj) (hge : h.length ≤ i)
    (hgo : (mutate h rootId cmds).1.get? i = some o) : o.frozen = true := by
  have hinv := inv_runCmds h cmds _ (inv_init h rootId)
  rw [show (mutate h rootId cmds).1 = freezeClones (runCmds cmds _).heap
      (List.map Prod.snd (runCmds cmds _).proxies) from rfl] at hgo
  rw [freezeClones_get?] at hgo
  cases hg : (runCmds cmds
      (⟨(proxyClone ⟨h, [], []⟩ rootId).1.heap,
        (proxyClone ⟨h, [], []⟩ rootId).1.proxies,
        [SVal.proxy (proxyClone ⟨h, [], []⟩ rootId).2]⟩ : MState)).heap.get? i with
  | none =>
    rw [hg] at hgo
    cases hgo
  | some o1 =>
    rw [hg] at hgo
    have hlt : i < (runCmds cmds
        (⟨(proxyClone ⟨h, [], []⟩ rootId).1.heap,
          (proxyClone ⟨h, [], []⟩ rootId).1.proxies,
          [SVal.proxy (proxyClone ⟨h, [], []⟩ rootId).2]⟩ : MState)).heap.length := by
      by_contra hcon
      rw [List.get?_eq_none.mpr (by omega)] at hg
      cases hg
    have hmem := hinv.2.2.2.1 i hge hlt
    rw [Option.map_some', Option.some.injEq] at hgo
    rw [← hgo, freezeIf, if_pos hmem]

end Mut

/--
C2: mutating a record with nested field a and untouched sibling field c
through the edit routine that assigns a.b leaves the original top-level
object and its nested a object unchanged, returns a new top-level object
with a new a object, and shares the untouched c by reference; and in
general, after the edit routine returns, every container cloned during the
call is frozen and every object of the input heap remains byte-for-byte the
same (so untouched sub-containers keep their identity).
-/
theorem claim2_cow_non_aliasing :
    (C2.run.2 = 3 ∧
     lookupF (Mut.fieldsAt C2.run.1 C2.run.2) "a" = some (JVal.ref 4) ∧
     lookupF (Mut.fieldsAt C2.run.1 C2.run.2) "c" = some (JVal.ref 2) ∧
     C2.run.1.get? 0 = some ⟨.record, [("a", JVal.ref 1), ("c", JVal.ref 2)], false⟩ ∧
     C2.run.1.get? 1 = some ⟨.record, [("b", JVal.prim (JPrim.num 1))], false⟩ ∧
     C2.run.1.get? 2 = some ⟨.record, [("x", JVal.prim (JPrim.num 1))], false⟩ ∧
     C2.run.1.get? 3 = some ⟨.record, [("a", JVal.ref 4), ("c", JVal.ref 2)], true⟩ ∧
     C2.run.1.get? 4 = some ⟨.record, [("b", JVal.prim (JPrim.num 2))], true⟩) ∧
    (∀ (h : Mut.MHeap) (rootId : Nat) (cmds : List Mut.MCmd),
      (∀ i, i < h.length → (Mut.mutate h rootId cmds).1.get? i = h.get? i) ∧
      (∀ i o, h.length ≤ i → (Mut.mutate h rootId cmds).1.get? i = some o →
        o.frozen = true)) := by
  constructor
  · decide
  · intro h rootId cmds
    exact ⟨fun i hi => Mut.mutate_originals_preserved h rootId cmds i hi,
           fun i o hge hgo => Mut.mutate_clones_frozen h rootId cmds i o hge hgo⟩

/-- Witness for the copy-on-write claim: the nested a object of the concrete
scenario keeps its identity and content in the result heap. -/
theorem claim2_witness :
    1 < C2.heap0.length ∧
    (Mut.mutate C2.heap0 0 C2.editScript).1.get? 1 = C2.heap0.get? 1 :=
  ⟨by decide, (claim2_cow_non_aliasing.2 C2.heap0 0 C2.editScript).1 1 (by decide)⟩

/--
C5 counterexample: running mutate over a one-object heap with an edit
routine that touches nothing returns the fresh clone id 1, not the input
id 0 — so the returned value is not reference-identical to the input even
though nothing was touched.
-/
theorem claim5_counterexample :
    (Mut.mutate [(⟨.record, [("a", JVal.prim (JPrim.num 1))], false⟩ : Mut.MObj)] 0 []).2 = 1 ∧
    (1 : Nat) ≠ 0 := by
  decide

/--
C5 (amended): mutate returns the finalized top-level clone, whose id is the
heap size at entry; even when the edit routine touches nothing the returned
value is a fresh frozen shallow copy of the input — same kind and same
fields, but a new object, never the input reference — and the input object
itself is unchanged.
-/
theorem claim5_untouched_returns_fresh_clone (h : Mut.MHeap) (rootId : Nat)
    (hroot : rootId < h.length) :
    (Mut.mutate h rootId []).2 = h.length ∧
    (Mut.mutate h rootId []).2 ≠ rootId ∧
    (Mut.mutate h rootId []).1.get? rootId = h.get? rootId ∧
    (∃ o0 o : Mut.MObj, h.get? rootId = some o0 ∧
      (Mut.mutate h rootId []).1.get? h.length = some o ∧
      o.kind = o0.kind ∧ o.fields = o0.fields ∧ o.frozen = true) := by
  cases hg : h.get? rootId with
  | none =>
    rw [List.get?_eq_none] at hg
    omega
  | some o0 =>
    have hstep : Mut.mutate h rootId []
        = (Mut.freezeClones (h ++ [⟨o0.kind, o0.fields, false⟩]) [h.length, h.length],
           h.length) := by
      simp only [Mut.mutate, Mut.proxyClone, Mut.runCmds, hg]
      rfl
    refine ⟨?_, ?_, ?_, ?_⟩
    · rw [hstep]
    · rw [hstep]
      show h.length ≠ rootId
      omega
    · rw [Mut.mutate_originals_preserved h rootId [] rootId hroot]
      exact hg
    · refine ⟨o0, ⟨o0.kind, o0.fields, true⟩, rfl, ?_, rfl, rfl, rfl⟩
      rw [hstep]
      show (Mut.freezeClones (h ++ [⟨o0.kind, o0.fields, false⟩])
          [h.length, h.length]).get? h.length = some ⟨o0.kind, o0.fields, true⟩
      rw [Mut.freezeClones_get?, get?_append_len]
      rw [Option.map_some']
      rw [Mut.freezeIf, if_pos (by simp)]

/-- Witness for the amended no-touch claim: a singleton heap, where the
returned clone is id 1 with the same kind and fields, frozen. -/
theorem claim5_witness :
    0 < [(⟨.record, [("a", JVal.prim (JPrim.num 1))], false⟩ : Mut.MObj)].length ∧
    (Mut.mutate [(⟨.record, [("a", JVal.prim (JPrim.num 1))], false⟩ : Mut.MObj)] 0 []).2 = 1 :=
  ⟨by decide,
   (claim5_untouched_returns_fresh_clone
      [(⟨.record, [("a", JVal.prim (JPrim.num 1))], false⟩ : Mut.MObj)] 0 (by decide)).1⟩

namespace Reg

theorem lookupR_setR_self (reg : Registry) (p : Nat) (hs : List Handle) :
    lookupR (setR reg p hs) p = some hs := by
  induction reg with
  | nil => rw [setR, lookupR, if_pos rfl]
  | cons e rest ih =>
    obtain ⟨p1, hs1⟩ := e
    by_cases hp : p1 = p
    · rw [setR, if_pos hp, lookupR, if_pos hp]
    · rw [setR, if_neg hp, lookupR, if_neg hp]
      exact ih

theorem lookupR_setR_ne (reg : Registry) (p q : Nat) (hs : List Handle)
    (hq : q ≠ p) : lookupR (setR reg p hs) q = lookupR reg q := by
  induction reg with
  | nil =>
    show lookupR [(p, hs)] q = lookupR [] q
    have hu : lookupR [(p, hs)] q = if p = q then some hs else lookupR [] q := rfl
    rw [hu, if_neg (fun e => hq e.symm)]
  | cons e rest ih =>
    obtain ⟨p1, hs1⟩ := e
    by_cases hp : p1 = p
    · rw [setR, if_pos hp]
      simp only [lookupR]
      have hp1q : ¬ p1 = q := by omega
      rw [if_neg hp1q, if_neg hp1q]
    · rw [setR, if_neg hp]
      simp only [lookupR]
      by_cases hp1q : p1 = q
      · rw [if_pos hp1q, if_pos hp1q]
      · rw [if_neg hp1q, if_neg hp1q]
        exact ih

theorem lookupR_delR_self (reg : Registry) (p : Nat) :
    lookupR (delR reg p) p = none := by
  induction reg with
  | nil => rfl
  | cons e rest ih =>
    obtain ⟨p1, hs1⟩ := e
    by_cases hp : p1 = p
    · rw [delR, if_pos hp]
      exact ih
    · rw [delR, if_neg hp, lookupR, if_neg hp]
      exact ih

theorem lookupR_delR_ne (reg : Registry) (p q : Nat) (hq : q ≠ p) :
    lookupR (delR reg p) q = lookupR reg q := by
  induction reg with
  | nil => rfl
  | cons e rest ih =>
    obtain ⟨p1, hs1⟩ := e
    by_cases hp : p1 = p
    · rw [delR, if_pos hp, lookupR, if_neg (by omega : ¬ p1 = q)]
      exact ih
    · rw [delR, if_neg hp, lookupR, lookupR]
      by_cases hp1q : p1 = q
      · rw [if_pos hp1q, if_pos hp1q]
      · rw [if_neg hp1q, if_neg hp1q]
        exact ih

theorem keepHandle_true (s : Nat) (hh : Handle) :
    keepHandle s hh = true ↔ hh.alive = true ∧ hh.target ≠ s := by
  simp [keepHandle]

end Reg

/--
C7 counterexample: subscribe listener 5 to view 1, let listener 5 be
collected, then subscribe listener 7 to view 2 — directly after that
subscribersAdd call the registry still maps view 1 to an entry holding one
expired handle and no live one, refuting the claim that after any add or
remove call no view maps to an entry with zero live handles.
-/
theorem claim7_counterexample :
    Reg.lookupR Reg.staleRun 1 = some [⟨5, false⟩] ∧
    Reg.liveHandles [⟨5, false⟩] = [] := by
  decide

/--
C7 (amended): after subscribersAdd(view, listener) the entry of that view is
non-empty, holds only live handles, and holds exactly one handle for the
listener; after subscribersRemove(view, listener) the entry of that view is
either gone or non-empty with only live handles; entries of every other view
are untouched by both calls — so an untouched entry whose handles have all
expired may remain in the registry until that view is next operated on.
-/
theorem claim7_registry_entry_liveness (reg : Reg.Registry) (p s : Nat) :
    (∃ hs, Reg.lookupR (Reg.subscribersAdd reg p s) p = some hs ∧ hs ≠ [] ∧
      (∀ hh ∈ hs, hh.alive = true) ∧
      hs.filter (fun hh => hh.target = s) = [⟨s, true⟩]) ∧
    (Reg.lookupR (Reg.subscribersRemove reg p s) p = none ∨
      ∃ hs, Reg.lookupR (Reg.subscribersRemove reg p s) p = some hs ∧ hs ≠ [] ∧
        ∀ hh ∈ hs, hh.alive = true) ∧
    (∀ q, q ≠ p →
      Reg.lookupR (Reg.subscribersAdd reg p s) q = Reg.lookupR reg q ∧
      Reg.lookupR (Reg.subscribersRemove reg p s) q = Reg.lookupR reg q) := by
  refine ⟨?_, ?_, ?_⟩
  · refine ⟨((Reg.lookupR reg p).getD []).filter (Reg.keepHandle s) ++ [⟨s, true⟩],
      ?_, by simp, ?_, ?_⟩
    · show Reg.lookupR (Reg.setR reg p
        (((Reg.lookupR reg p).getD []).filter (Reg.keepHandle s) ++ [⟨s, true⟩])) p = _
      exact Reg.lookupR_setR_self reg p _
    · intro hh hm
      rw [List.mem_append] at hm
      rcases hm with hm | hm
      · have := List.mem_filter.mp hm
        exact ((Reg.keepHandle_true s hh).mp this.2).1
      · rw [List.mem_singleton] at hm
        rw [hm]
    · rw [List.filter_append]
      have h1 : (((Reg.lookupR reg p).getD []).filter
          (Reg.keepHandle s)).filter (fun hh => hh.target = s) = [] := by
        rw [List.filter_eq_nil_iff]
        intro hh hm
        have := ((Reg.keepHandle_true s hh).mp (List.mem_filter.mp hm).2).2
        simp [this]
      rw [h1]
      simp
  · cases hr : Reg.lookupR reg p with
    | none =>
      simp only [Reg.subscribersRemove, hr]
      exact Or.inl trivial
    | some subs =>
      simp only [Reg.subscribersRemove, hr]
      by_cases hempty : subs.filter (Reg.keepHandle s) = []
      · rw [if_pos hempty]
        exact Or.inl (Reg.lookupR_delR_self reg p)
      · rw [if_neg hempty]
        refine Or.inr ⟨subs.filter (Reg.keepHandle s),
          Reg.lookupR_setR_self reg p _, hempty, ?_⟩
        intro hh hm
        exact ((Reg.keepHandle_true s hh).mp (List.mem_filter.mp hm).2).1
  · intro q hq
    constructor
    · exact Reg.lookupR_setR_ne reg p q _ hq
    · cases hr : Reg.lookupR reg p with
      | none => simp only [Reg.subscribersRemove, hr]
      | some subs =>
        simp only [Reg.subscribersRemove, hr]
        by_cases hempty : subs.filter (Reg.keepHandle s) = []
        · rw [if_pos hempty]
          exact Reg.lookupR_delR_ne reg p q hq
        · rw [if_neg hempty]
          exact Reg.lookupR_setR_ne reg p q _ hq

/-- Witness for the amended registry claim: adding to an empty registry
creates a singleton live entry and leaves another view untouched. -/
theorem claim7_witness :
    (2 : Nat) ≠ 1 ∧
    Reg.lookupR (Reg.subscribersAdd [] 1 5) 2 = Reg.lookupR [] 2 :=
  ⟨by decide, ((claim7_registry_entry_liveness [] 1 5).2.2 2 (by decide)).1⟩

/--
C8: starting a tracking scope (rendering a ptrs-wrapped component) while
another tracking scope is already active raises the reentrant-tracking
usage fault synchronously at the call site: the tracking state is returned
exactly as it was, no view is handed to usePointer, the component is never
run, and the fault is an error result — neither queued nor silently ignored.
-/
theorem claim8_reentrant_tracking (st : Track.TrackState) (reads : List Path)
    (hw : st.watch = true) :
    Track.ptrs st reads
      = (st, [], Except.error Track.TrackErr.reentrantTracking) := by
  rw [Track.ptrs, if_pos hw]

/-- Witness for the reentrant-tracking claim: a state with the watch flag on
faults immediately. -/
theorem claim8_witness :
    Track.ptrs ⟨true, []⟩ [["a"]]
      = (⟨true, []⟩, [], Except.error Track.TrackErr.reentrantTracking) :=
  claim8_reentrant_tracking ⟨true, []⟩ [["a"]] rfl

end Ptrs
